import Mathlib

set_option maxRecDepth 4000

/-!
Verification of the snark-rs R1CS-to-PLONK constraint lowerer and its
supporting file I/O, against the repository specification.

The Rust source is shallowly embedded:
* `Element<Bn128>` (the mir `r1cs` crate stores a canonical `BigUint < r`)
  becomes `ZMod bn254r`;
* a `HashMap<u32, Element<Bn128>>` linear combination becomes an association
  list `List (ℕ × F)` whose list order models the map's iteration order
  (which in Rust's `std::collections::HashMap` is unspecified and varies
  between maps and between runs — this matters for claim C1);
* the mutable lowerer state (`plonk_n_vars`, `plonk_constraints`,
  `plonk_additions`) becomes an explicit `PState` threaded through the
  helpers exactly as the `&mut` references are in `src/r1cs.rs`;
* fallible I/O returns `Option`/`RunResult`, where `RunResult.panicked`
  marks a Rust panic (`unwrap` on `Err`, out-of-bounds slice) as opposed to
  an `Err` return.
-/

namespace SnarkRs

/-- BN254 (aka BN128) scalar-field modulus `r` (src/curves.rs line 50). -/
def bn254r : ℕ :=
  21888242871839275222246405745257275088548364400416034343698204186575808495617

/-- The scalar field: canonical representatives mod `r`, as `Element<Bn128>`
stores them. -/
abbrev F : Type := ZMod bn254r

instance : Fact (1 < bn254r) := ⟨by norm_num [bn254r]⟩

/-- One PLONK gate row, the 8-tuple pushed to `plonk_constraints`
(src/r1cs.rs lines 26-35). -/
structure Gate where
  sl : ℕ
  sr : ℕ
  so : ℕ
  qm : F
  ql : F
  qr : F
  qo : F
  qc : F
deriving DecidableEq

/-- One record of `plonk_additions` (src/r1cs.rs line 36). -/
structure Addition where
  a : ℕ
  b : ℕ
  v1 : F
  v2 : F
deriving DecidableEq

/-- The mutable lowering state threaded by reference through every helper of
`process_constraints` (src/r1cs.rs lines 23, 26, 36). -/
structure PState where
  nVars : ℕ
  constraints : List Gate
  additions : List Addition
deriving DecidableEq

/-- A linear combination: `HashMap<u32, Element<Bn128>>` together with its
iteration order. -/
abbrev LC : Type := List (ℕ × F)

/-- `normalize` (src/r1cs.rs lines 38-40): drop zero-coefficient entries. -/
def normalize (lc : LC) : LC := lc.filter fun p => !(p.2 == 0)

/-- `HashMap::entry(s).and_modify(|e| e += v).or_insert(v)` on the model. -/
def hmInsertAdd (m : LC) (s : ℕ) (v : F) : LC :=
  if m.any fun p => p.1 == s then m.map fun p => if p.1 == s then (p.1, p.2 + v) else p
  else m ++ [(s, v)]

/-- `join` (src/r1cs.rs lines 42-61): `k·lc1 + lc2`, then normalized. -/
def join (lc1 : LC) (k : F) (lc2 : LC) : LC :=
  normalize (lc2.foldl (fun res p => hmInsertAdd res p.1 p.2)
    (lc1.foldl (fun res p => hmInsertAdd res p.1 (k * p.2)) []))

/-- `lc.get(&s).unwrap()` rendered total; every call site guarantees the key
is present (proved where used). -/
def lcLookup (lc : LC) (s : ℕ) : F := ((lc.find? fun p => p.1 == s).map Prod.snd).getD 0

/-- `get_lc_type` (src/r1cs.rs lines 186-206): removes zero entries in place,
returns the classification tag together with the normalized map. -/
def get_lc_type (lc : LC) : String × LC :=
  let lc' := lc.filter fun p => !(p.2 == 0)
  let k : F := ((lc'.filter fun p => p.1 == 0).map Prod.snd).sum
  let n := (lc'.filter fun p => !(p.1 == 0)).length
  (if 0 < n then toString n else if !(k == 0) then "k" else "0", lc')

/-- The `while cs.len() > max_c` allocation loop of `reduce_coefs`
(src/r1cs.rs lines 90-117).  Each pass removes the first two pending pairs,
emits one gate and one addition record, and pushes the freshly allocated
wire to the back of the pending list.  (When `max_c = 0` and one pair is
left the Rust `remove(0)` would panic; the function is only ever called with
`max_c ∈ {1, 3}`.) -/
def reduceLoop (maxC : ℕ) (cs : List (ℕ × F)) (st : PState) : List (ℕ × F) × PState :=
  match cs with
  | c1 :: c2 :: rest =>
    if maxC < rest.length + 2 then
      reduceLoop maxC (rest ++ [(st.nVars, 1)])
        { nVars := st.nVars + 1,
          constraints := st.constraints ++ [⟨c1.1, c2.1, st.nVars, 0, -c1.2, -c2.2, 1, 0⟩],
          additions := st.additions ++ [⟨c1.1, c2.1, c1.2, c2.2⟩] }
    else (c1 :: c2 :: rest, st)
  | cs' => (cs', st)
termination_by cs.length
decreasing_by simp

/-- `reduce_coefs` (src/r1cs.rs lines 63-126): split off the constant part,
run the allocation loop, right-pad to exactly `max_c` wires/coefficients. -/
def reduce_coefs (lc : LC) (maxC : ℕ) (st : PState) :
    F × List ℕ × List F × PState :=
  let k : F := ((lc.filter fun p => p.1 == 0).map Prod.snd).sum
  let cs0 := lc.filter fun p => !(p.1 == 0)
  let r := reduceLoop maxC cs0 st
  let s := r.1.map Prod.fst ++ List.replicate (maxC - r.1.length) 0
  let coefs := r.1.map Prod.snd ++ List.replicate (maxC - r.1.length) (0 : F)
  (k, s, coefs, r.2)

/-- `add_constraint_sum` (src/r1cs.rs lines 128-154). -/
def add_constraint_sum (lc : LC) (st : PState) : PState :=
  let r := reduce_coefs lc 3 st
  { r.2.2.2 with constraints := r.2.2.2.constraints ++
      [⟨r.2.1.getD 0 0, r.2.1.getD 1 0, r.2.1.getD 2 0, 0,
        r.2.2.1.getD 0 0, r.2.2.1.getD 1 0, r.2.2.1.getD 2 0, r.1⟩] }

/-- `add_constraint_mul` (src/r1cs.rs lines 156-184). -/
def add_constraint_mul (a b c : LC) (st : PState) : PState :=
  let ra := reduce_coefs a 1 st
  let rb := reduce_coefs b 1 ra.2.2.2
  let rc := reduce_coefs c 1 rb.2.2.2
  let ka := ra.1
  let kb := rb.1
  let kc := rc.1
  let ca0 := ra.2.2.1.getD 0 0
  let cb0 := rb.2.2.1.getD 0 0
  let cc0 := rc.2.2.1.getD 0 0
  { rc.2.2.2 with constraints := rc.2.2.2.constraints ++
      [⟨ra.2.1.getD 0 0, rb.2.1.getD 0 0, rc.2.1.getD 0 0,
        ca0 * cb0, ca0 * kb, ka * cb0, -cc0, ka * kb - kc⟩] }

/-- `process` (src/r1cs.rs lines 208-241): per-constraint dispatch.  The two
`get_lc_type` calls normalize `a` and `b` in place before the branch. -/
def process (a b c : LC) (st : PState) : PState :=
  let ta := (get_lc_type a).1
  let a' := (get_lc_type a).2
  let tb := (get_lc_type b).1
  let b' := (get_lc_type b).2
  if ta = "0" ∨ tb = "0" then add_constraint_sum (normalize c) st
  else if ta = "k" then add_constraint_sum (join b' (lcLookup a' 0) c) st
  else if tb = "k" then add_constraint_sum (join a' (lcLookup b' 0) c) st
  else add_constraint_mul a' b' c st

/-- `R1csHeader` (src/file.rs lines 24-34); integer fields are `u32`/`u64`
values, kept as `ℕ`. -/
structure R1csHeader where
  n8 : ℕ
  prime : ℕ
  n_vars : ℕ
  n_outputs : ℕ
  n_pub_inputs : ℕ
  n_prv_inputs : ℕ
  n_labels : ℕ
  n_constraints : ℕ
  use_custom_gates : Bool
deriving DecidableEq

/-- `R1cs` (src/file.rs lines 15-18), coefficients already mapped into the
scalar field as `process_constraints` does with `Element::from`. -/
structure R1cs where
  header : R1csHeader
  constraints : List (LC × LC × LC)

/-- `n_public = n_outputs + n_pub_inputs` (src/r1cs.rs line 24); `u32`
addition, so the program only reaches it when the sum fits in 32 bits. -/
def n_public (h : R1csHeader) : ℕ := h.n_outputs + h.n_pub_inputs

/-- The gate pushed for each public wire (src/r1cs.rs lines 243-254). -/
def pubGate (s : ℕ) : Gate := ⟨s, 0, 0, 0, 1, 0, 0, 0⟩

/-- The lowerer state right after the public-input loop and before any R1CS
constraint is processed (src/r1cs.rs lines 23-36 and 243-254). -/
def initState (r : R1cs) : PState :=
  ⟨r.header.n_vars, (List.range (n_public r.header)).map fun i => pubGate (i + 1), []⟩

/-- One iteration of the main constraint loop (src/r1cs.rs lines 257-286). -/
def processStep (st : PState) (t : LC × LC × LC) : PState := process t.1 t.2.1 t.2.2 st

/-- `process_constraints` (src/r1cs.rs lines 6-289). -/
def process_constraints (r : R1cs) : PState :=
  r.constraints.foldl processStep (initState r)

/-- The value of a gate row on a witness `w`: the PLONK gate equation's
left-hand side `qm·w[sl]·w[sr] + ql·w[sl] + qr·w[sr] + qo·w[so] + qc`. -/
def gateEval (g : Gate) (w : ℕ → F) : F :=
  g.qm * w g.sl * w g.sr + g.ql * w g.sl + g.qr * w g.sr + g.qo * w g.so + g.qc

/-- The gate emitted alongside an addition record, at the freshly allocated
output wire `so`. -/
def addGate (a4 : Addition) (so : ℕ) : Gate := ⟨a4.a, a4.b, so, 0, -a4.v1, -a4.v2, 1, 0⟩

/-! ### Basic equations of the allocation loop -/

lemma reduceLoop_short (maxC : ℕ) (cs : List (ℕ × F)) (st : PState)
    (h : cs.length ≤ 1) : reduceLoop maxC cs st = (cs, st) := by
  match cs with
  | [] => rw [reduceLoop]; simp
  | [c] => rw [reduceLoop]; simp
  | c1 :: c2 :: rest => simp at h

lemma reduceLoop_done (maxC : ℕ) (cs : List (ℕ × F)) (st : PState)
    (h : cs.length ≤ maxC) : reduceLoop maxC cs st = (cs, st) := by
  match cs with
  | [] => rw [reduceLoop]; simp
  | [c] => rw [reduceLoop]; simp
  | c1 :: c2 :: rest =>
    rw [reduceLoop]
    simp only [List.length_cons] at h
    rw [if_neg (by omega)]

lemma reduceLoop_step (maxC : ℕ) (c1 c2 : ℕ × F) (rest : List (ℕ × F)) (st : PState)
    (h : maxC < rest.length + 2) :
    reduceLoop maxC (c1 :: c2 :: rest) st =
      reduceLoop maxC (rest ++ [(st.nVars, 1)])
        ⟨st.nVars + 1,
         st.constraints ++ [⟨c1.1, c2.1, st.nVars, 0, -c1.2, -c2.2, 1, 0⟩],
         st.additions ++ [⟨c1.1, c2.1, c1.2, c2.2⟩]⟩ := by
  rw [reduceLoop]
  rw [if_pos h]

/-! ### Frame lemmas: every helper only appends to the gate and addition
lists, and its behaviour depends on the incoming state only through
`nVars`.  The `rl…`/`rc…` functions name the pieces produced from an empty
start state. -/

def rlRem (maxC : ℕ) (cs : List (ℕ × F)) (n : ℕ) : List (ℕ × F) :=
  (reduceLoop maxC cs ⟨n, [], []⟩).1

def rlN (maxC : ℕ) (cs : List (ℕ × F)) (n : ℕ) : ℕ :=
  (reduceLoop maxC cs ⟨n, [], []⟩).2.nVars

def rlG (maxC : ℕ) (cs : List (ℕ × F)) (n : ℕ) : List Gate :=
  (reduceLoop maxC cs ⟨n, [], []⟩).2.constraints

def rlA (maxC : ℕ) (cs : List (ℕ × F)) (n : ℕ) : List Addition :=
  (reduceLoop maxC cs ⟨n, [], []⟩).2.additions

lemma reduceLoop_eq (maxC : ℕ) (cs : List (ℕ × F)) (st : PState) :
    reduceLoop maxC cs st =
      (rlRem maxC cs st.nVars,
       ⟨rlN maxC cs st.nVars,
        st.constraints ++ rlG maxC cs st.nVars,
        st.additions ++ rlA maxC cs st.nVars⟩) := by
  have main : ∀ (L : ℕ) (cs : List (ℕ × F)) (st : PState), cs.length ≤ L →
      reduceLoop maxC cs st =
        (rlRem maxC cs st.nVars,
         ⟨rlN maxC cs st.nVars,
          st.constraints ++ rlG maxC cs st.nVars,
          st.additions ++ rlA maxC cs st.nVars⟩) := by
    intro L
    induction L with
    | zero =>
      intro cs st h
      have hnil : cs = [] := List.length_eq_zero.mp (Nat.le_zero.mp h)
      subst hnil
      simp [rlRem, rlN, rlG, rlA, reduceLoop_short]
    | succ L IH =>
      intro cs st h
      match cs with
      | [] => simp [rlRem, rlN, rlG, rlA, reduceLoop_short]
      | [c] => simp [rlRem, rlN, rlG, rlA, reduceLoop_short]
      | c1 :: c2 :: rest =>
        by_cases hc : maxC < rest.length + 2
        · have hlen : (rest ++ [(st.nVars, (1 : F))]).length ≤ L := by
            simp only [List.length_cons] at h
            simp
            omega
          have hlen' : ∀ v : F, (rest ++ [(st.nVars, v)]).length ≤ L := fun _ => by
            simpa using hlen
          rw [reduceLoop_step maxC c1 c2 rest st hc]
          rw [IH _ _ hlen]
          have base :
              reduceLoop maxC (c1 :: c2 :: rest) ⟨st.nVars, [], []⟩ =
                reduceLoop maxC (rest ++ [(st.nVars, 1)])
                  ⟨st.nVars + 1,
                   [⟨c1.1, c2.1, st.nVars, 0, -c1.2, -c2.2, 1, 0⟩],
                   [⟨c1.1, c2.1, c1.2, c2.2⟩]⟩ := by
            rw [reduceLoop_step maxC c1 c2 rest ⟨st.nVars, [], []⟩ hc]
            simp
          have base' := IH (rest ++ [(st.nVars, 1)])
            ⟨st.nVars + 1,
             [⟨c1.1, c2.1, st.nVars, 0, -c1.2, -c2.2, 1, 0⟩],
             [⟨c1.1, c2.1, c1.2, c2.2⟩]⟩ hlen
          simp only [rlRem, rlN, rlG, rlA, base, base']
          simp
        · have hdone : (c1 :: c2 :: rest).length ≤ maxC := by
            simp only [List.length_cons]
            omega
          rw [reduceLoop_done maxC _ _ hdone]
          simp [rlRem, rlN, rlG, rlA, reduceLoop_done maxC _ _ hdone]
  exact main cs.length cs st le_rfl

/-- The allocation loop pairs gates and addition records one to one: the
`j`-th gate it appends is exactly `addGate` of the `j`-th addition record at
output wire `n + j`, and `plonk_n_vars` grows by exactly one per record. -/
lemma reduceLoop_alloc (maxC : ℕ) (cs : List (ℕ × F)) (n : ℕ) :
    rlN maxC cs n = n + (rlA maxC cs n).length
    ∧ ∀ j : ℕ, (rlG maxC cs n).get? j = ((rlA maxC cs n).get? j).map fun a4 => addGate a4 (n + j) := by
  have main : ∀ (L : ℕ) (cs : List (ℕ × F)) (n : ℕ), cs.length ≤ L →
      rlN maxC cs n = n + (rlA maxC cs n).length
      ∧ ∀ j : ℕ, (rlG maxC cs n).get? j
          = ((rlA maxC cs n).get? j).map fun a4 => addGate a4 (n + j) := by
    intro L
    induction L with
    | zero =>
      intro cs n h
      have hnil : cs = [] := List.length_eq_zero.mp (Nat.le_zero.mp h)
      subst hnil
      simp [rlN, rlA, rlG, reduceLoop_short]
    | succ L IH =>
      intro cs n h
      match cs with
      | [] => simp [rlN, rlA, rlG, reduceLoop_short]
      | [c] => simp [rlN, rlA, rlG, reduceLoop_short]
      | c1 :: c2 :: rest =>
        by_cases hc : maxC < rest.length + 2
        · have hlen : (rest ++ [(n, (1 : F))]).length ≤ L := by
            simp only [List.length_cons] at h
            simp
            omega
          have base :
              reduceLoop maxC (c1 :: c2 :: rest) ⟨n, [], []⟩ =
                reduceLoop maxC (rest ++ [(n, 1)])
                  ⟨n + 1,
                   [⟨c1.1, c2.1, n, 0, -c1.2, -c2.2, 1, 0⟩],
                   [⟨c1.1, c2.1, c1.2, c2.2⟩]⟩ := by
            rw [reduceLoop_step maxC c1 c2 rest ⟨n, [], []⟩ hc]
            simp
          have base' := reduceLoop_eq maxC (rest ++ [(n, 1)])
            ⟨n + 1,
             [⟨c1.1, c2.1, n, 0, -c1.2, -c2.2, 1, 0⟩],
             [⟨c1.1, c2.1, c1.2, c2.2⟩]⟩
          obtain ⟨ihN, ihG⟩ := IH (rest ++ [(n, 1)]) (n + 1) hlen
          have hG : rlG maxC (c1 :: c2 :: rest) n
              = ⟨c1.1, c2.1, n, 0, -c1.2, -c2.2, 1, 0⟩ :: rlG maxC (rest ++ [(n, 1)]) (n + 1) := by
            simp only [rlG, base, base', List.singleton_append]
          have hA : rlA maxC (c1 :: c2 :: rest) n
              = ⟨c1.1, c2.1, c1.2, c2.2⟩ :: rlA maxC (rest ++ [(n, 1)]) (n + 1) := by
            simp only [rlA, base, base', List.singleton_append]
          have hN : rlN maxC (c1 :: c2 :: rest) n = rlN maxC (rest ++ [(n, 1)]) (n + 1) := by
            simp only [rlN, base, base']
          constructor
          · rw [hN, hA, ihN, List.length_cons]
            omega
          · intro j
            match j with
            | 0 => simp [hG, hA, addGate]
            | j + 1 =>
              rw [hG, hA]
              simp only [List.get?_cons_succ, ihG j]
              have : n + 1 + j = n + (j + 1) := by omega
              rw [this]
        · have hdone : (c1 :: c2 :: rest).length ≤ maxC := by
            simp only [List.length_cons]
            omega
          simp [rlN, rlA, rlG, reduceLoop_done maxC _ _ hdone]
  exact main cs.length cs n le_rfl

/-! ### `reduce_coefs` and the constraint emitters in frame form -/

def rcK (lc : LC) (maxC n : ℕ) : F := (reduce_coefs lc maxC ⟨n, [], []⟩).1

def rcS (lc : LC) (maxC n : ℕ) : List ℕ := (reduce_coefs lc maxC ⟨n, [], []⟩).2.1

def rcC (lc : LC) (maxC n : ℕ) : List F := (reduce_coefs lc maxC ⟨n, [], []⟩).2.2.1

def rcN (lc : LC) (maxC n : ℕ) : ℕ := (reduce_coefs lc maxC ⟨n, [], []⟩).2.2.2.nVars

def rcG (lc : LC) (maxC n : ℕ) : List Gate := (reduce_coefs lc maxC ⟨n, [], []⟩).2.2.2.constraints

def rcA (lc : LC) (maxC n : ℕ) : List Addition := (reduce_coefs lc maxC ⟨n, [], []⟩).2.2.2.additions

lemma reduce_coefs_eq (lc : LC) (maxC : ℕ) (st : PState) :
    reduce_coefs lc maxC st =
      (rcK lc maxC st.nVars, rcS lc maxC st.nVars, rcC lc maxC st.nVars,
       ⟨rcN lc maxC st.nVars,
        st.constraints ++ rcG lc maxC st.nVars,
        st.additions ++ rcA lc maxC st.nVars⟩) := by
  simp only [rcK, rcS, rcC, rcN, rcG, rcA, reduce_coefs]
  rw [reduceLoop_eq maxC _ st, reduceLoop_eq maxC _ ⟨st.nVars, [], []⟩]
  simp

lemma rcN_eq (lc : LC) (maxC n : ℕ) :
    rcN lc maxC n = n + (rcA lc maxC n).length := by
  have h := (reduceLoop_alloc maxC (lc.filter fun p => !(p.1 == 0)) n).1
  simp only [rcN, rcA, reduce_coefs, rlN, rlA] at *
  exact h

lemma rcGA_get? (lc : LC) (maxC n : ℕ) (j : ℕ) :
    (rcG lc maxC n).get? j = ((rcA lc maxC n).get? j).map fun a4 => addGate a4 (n + j) := by
  have h := (reduceLoop_alloc maxC (lc.filter fun p => !(p.1 == 0)) n).2 j
  simp only [rcG, rcA, reduce_coefs, rlG, rlA] at *
  exact h

/-- The gate appended by `add_constraint_sum`, as a function of the lowered
linear combination and the incoming `plonk_n_vars`. -/
def sumGate (lc : LC) (n : ℕ) : Gate :=
  ⟨(rcS lc 3 n).getD 0 0, (rcS lc 3 n).getD 1 0, (rcS lc 3 n).getD 2 0, 0,
   (rcC lc 3 n).getD 0 0, (rcC lc 3 n).getD 1 0, (rcC lc 3 n).getD 2 0, rcK lc 3 n⟩

lemma add_constraint_sum_eq (lc : LC) (st : PState) :
    add_constraint_sum lc st =
      ⟨rcN lc 3 st.nVars,
       st.constraints ++ (rcG lc 3 st.nVars ++ [sumGate lc st.nVars]),
       st.additions ++ rcA lc 3 st.nVars⟩ := by
  simp only [add_constraint_sum, reduce_coefs_eq, sumGate]
  simp

/-- The gate appended by `add_constraint_mul`, as a function of the three
lowered linear combinations and the incoming `plonk_n_vars`. -/
def mulGate (a b c : LC) (n : ℕ) : Gate :=
  ⟨(rcS a 1 n).getD 0 0, (rcS b 1 (rcN a 1 n)).getD 0 0,
   (rcS c 1 (rcN b 1 (rcN a 1 n))).getD 0 0,
   (rcC a 1 n).getD 0 0 * (rcC b 1 (rcN a 1 n)).getD 0 0,
   (rcC a 1 n).getD 0 0 * rcK b 1 (rcN a 1 n),
   rcK a 1 n * (rcC b 1 (rcN a 1 n)).getD 0 0,
   -(rcC c 1 (rcN b 1 (rcN a 1 n))).getD 0 0,
   rcK a 1 n * rcK b 1 (rcN a 1 n) - rcK c 1 (rcN b 1 (rcN a 1 n))⟩

lemma add_constraint_mul_eq (a b c : LC) (st : PState) :
    add_constraint_mul a b c st =
      ⟨rcN c 1 (rcN b 1 (rcN a 1 st.nVars)),
       st.constraints ++
         (rcG a 1 st.nVars ++ rcG b 1 (rcN a 1 st.nVars)
           ++ rcG c 1 (rcN b 1 (rcN a 1 st.nVars)) ++ [mulGate a b c st.nVars]),
       st.additions ++
         (rcA a 1 st.nVars ++ rcA b 1 (rcN a 1 st.nVars)
           ++ rcA c 1 (rcN b 1 (rcN a 1 st.nVars)))⟩ := by
  simp only [add_constraint_mul, reduce_coefs_eq, mulGate]
  simp

def prN (a b c : LC) (n : ℕ) : ℕ := (process a b c ⟨n, [], []⟩).nVars

def prG (a b c : LC) (n : ℕ) : List Gate := (process a b c ⟨n, [], []⟩).constraints

def prA (a b c : LC) (n : ℕ) : List Addition := (process a b c ⟨n, [], []⟩).additions

/-- `process` only appends gates and additions, and what it appends depends
on the incoming state only through `plonk_n_vars`. -/
lemma process_eq (a b c : LC) (st : PState) :
    process a b c st =
      ⟨prN a b c st.nVars,
       st.constraints ++ prG a b c st.nVars,
       st.additions ++ prA a b c st.nVars⟩ := by
  by_cases h1 : (get_lc_type a).1 = "0" ∨ (get_lc_type b).1 = "0"
  · simp only [prN, prG, prA, process, if_pos h1, add_constraint_sum_eq]
    simp
  · by_cases h2 : (get_lc_type a).1 = "k"
    · simp only [prN, prG, prA, process, if_neg h1, if_pos h2, add_constraint_sum_eq]
      simp
    · by_cases h3 : (get_lc_type b).1 = "k"
      · simp only [prN, prG, prA, process, if_neg h1, if_neg h2, if_pos h3, add_constraint_sum_eq]
        simp
      · simp only [prN, prG, prA, process, if_neg h1, if_neg h2, if_neg h3, add_constraint_mul_eq]
        simp

/-- `plonk_n_vars` grows by exactly the number of addition records appended,
for a single `process` call. -/
lemma process_delta (a b c : LC) (n : ℕ) :
    prN a b c n = n + (prA a b c n).length := by
  by_cases h1 : (get_lc_type a).1 = "0" ∨ (get_lc_type b).1 = "0"
  · simp only [prN, prA, process, if_pos h1, add_constraint_sum_eq]
    simp [rcN_eq]
  · by_cases h2 : (get_lc_type a).1 = "k"
    · simp only [prN, prA, process, if_neg h1, if_pos h2, add_constraint_sum_eq]
      simp [rcN_eq]
    · by_cases h3 : (get_lc_type b).1 = "k"
      · simp only [prN, prA, process, if_neg h1, if_neg h2, if_pos h3, add_constraint_sum_eq]
        simp [rcN_eq]
      · simp only [prN, prA, process, if_neg h1, if_neg h2, if_neg h3, add_constraint_mul_eq]
        simp [rcN_eq]
        omega

def psN (l : List (LC × LC × LC)) (n : ℕ) : ℕ := (l.foldl processStep ⟨n, [], []⟩).nVars

def psG (l : List (LC × LC × LC)) (n : ℕ) : List Gate :=
  (l.foldl processStep ⟨n, [], []⟩).constraints

def psA (l : List (LC × LC × LC)) (n : ℕ) : List Addition :=
  (l.foldl processStep ⟨n, [], []⟩).additions

lemma foldl_processStep_eq (l : List (LC × LC × LC)) (st : PState) :
    l.foldl processStep st =
      ⟨psN l st.nVars, st.constraints ++ psG l st.nVars, st.additions ++ psA l st.nVars⟩ := by
  induction l generalizing st with
  | nil => simp [psN, psG, psA]
  | cons t l IH =>
    have estep : ∀ st' : PState, processStep st' t = process t.1 t.2.1 t.2.2 st' := fun _ => rfl
    have hN : psN (t :: l) st.nVars = psN l (prN t.1 t.2.1 t.2.2 st.nVars) := by
      simp only [psN, List.foldl_cons, estep, process_eq]
      rw [IH]
      simp [psN]
    have hG : psG (t :: l) st.nVars
        = prG t.1 t.2.1 t.2.2 st.nVars ++ psG l (prN t.1 t.2.1 t.2.2 st.nVars) := by
      simp only [psG, List.foldl_cons, estep, process_eq]
      rw [IH]
      simp [psG]
    have hA : psA (t :: l) st.nVars
        = prA t.1 t.2.1 t.2.2 st.nVars ++ psA l (prN t.1 t.2.1 t.2.2 st.nVars) := by
      simp only [psA, List.foldl_cons, estep, process_eq]
      rw [IH]
      simp [psA]
    rw [hN, hG, hA]
    simp only [List.foldl_cons, estep, process_eq]
    rw [IH]
    simp

lemma foldl_processStep_delta (l : List (LC × LC × LC)) (n : ℕ) :
    psN l n = n + (psA l n).length := by
  induction l generalizing n with
  | nil => simp [psN, psA]
  | cons t l IH =>
    have estep : ∀ st' : PState, processStep st' t = process t.1 t.2.1 t.2.2 st' := fun _ => rfl
    have hN : psN (t :: l) n = psN l (prN t.1 t.2.1 t.2.2 n) := by
      simp only [psN, List.foldl_cons, estep, process_eq]
      rw [foldl_processStep_eq]
      simp [psN]
    have hA : psA (t :: l) n = prA t.1 t.2.1 t.2.2 n ++ psA l (prN t.1 t.2.1 t.2.2 n) := by
      simp only [psA, List.foldl_cons, estep, process_eq]
      rw [foldl_processStep_eq]
      simp [psA]
    rw [hN, hA, IH, process_delta]
    simp
    omega

/-- The gates derived from the R1CS constraints alone, without the
public-input prefix. -/
def constraint_gates (r : R1cs) : List Gate :=
  (r.constraints.foldl processStep ⟨r.header.n_vars, [], []⟩).constraints

/-! ### Claims C5, C6, C7, C8 -/

/-- Claim C5: per-constraint dispatch.  If `classify(A)` or `classify(B)` is
`"0"` one sum gate is emitted for the normalized `C`; otherwise if
`classify(A)` is `"k"` a sum gate for `join(B, A[0], C)`; otherwise if
`classify(B)` is `"k"` a sum gate for `join(A, B[0], C)`; otherwise a
multiplication gate.  The `"0"` test takes priority over `"k"` on the
opposite side, and classification normalizes `A` and `B` in place (the
branch functions receive the normalized maps `(get_lc_type ·).2`). -/
theorem claim_C5 (a b c : LC) (st : PState) :
    ((get_lc_type a).1 = "0" ∨ (get_lc_type b).1 = "0" →
        process a b c st = add_constraint_sum (normalize c) st)
    ∧ ((get_lc_type a).1 ≠ "0" → (get_lc_type b).1 ≠ "0" → (get_lc_type a).1 = "k" →
        process a b c st
          = add_constraint_sum (join (get_lc_type b).2 (lcLookup (get_lc_type a).2 0) c) st)
    ∧ ((get_lc_type a).1 ≠ "0" → (get_lc_type b).1 ≠ "0" → (get_lc_type a).1 ≠ "k" →
        (get_lc_type b).1 = "k" →
        process a b c st
          = add_constraint_sum (join (get_lc_type a).2 (lcLookup (get_lc_type b).2 0) c) st)
    ∧ ((get_lc_type a).1 ≠ "0" → (get_lc_type b).1 ≠ "0" → (get_lc_type a).1 ≠ "k" →
        (get_lc_type b).1 ≠ "k" →
        process a b c st = add_constraint_mul (get_lc_type a).2 (get_lc_type b).2 c st) := by
  refine ⟨?_, ?_, ?_, ?_⟩
  · intro h1
    simp only [process]
    rw [if_pos h1]
  · intro h1 h2 h3
    simp only [process]
    rw [if_neg (by tauto), if_pos h3]
  · intro h1 h2 h3 h4
    simp only [process]
    rw [if_neg (by tauto), if_neg h3, if_pos h4]
  · intro h1 h2 h3 h4
    simp only [process]
    rw [if_neg (by tauto), if_neg h3, if_neg h4]

/-- Claim C5, witnessed on the spec's scenario S4: `A = {0:5}` classifies as
`"k"`, `B = {1:1, 2:1}` as `"2"`, so the `"k"` linearization branch runs. -/
theorem claim_C5_witness :
    process [((0 : ℕ), (5 : F))] [(1, 1), (2, 1)] [(3, 1)] ⟨4, [], []⟩
      = add_constraint_sum
          (join (get_lc_type [((1 : ℕ), (1 : F)), (2, 1)]).2
            (lcLookup (get_lc_type [((0 : ℕ), (5 : F))]).2 0) [(3, 1)]) ⟨4, [], []⟩ :=
  (claim_C5 [((0 : ℕ), (5 : F))] [(1, 1), (2, 1)] [(3, 1)] ⟨4, [], []⟩).2.1
    (by decide) (by decide) (by decide)

/-- Claim C6: `add_constraint_mul` emits exactly one gate whose selectors are
`qm = ca·cb`, `ql = ca·kb`, `qr = ka·cb`, `qo = −cc`, `qc = ka·kb − kc` and
whose wires are `(sa[0], sb[0], sc[0])`, where the three `reduce_coefs`
calls with `max_c = 1` run on `A`, `B`, `C` in that order; the gate's value
on any witness `w` is `(ca·w[sa]+ka)·(cb·w[sb]+kb) − (cc·w[sc]+kc)`. -/
theorem claim_C6 (a b c : LC) (st : PState) :
    let ra := reduce_coefs a 1 st
    let rb := reduce_coefs b 1 ra.2.2.2
    let rc := reduce_coefs c 1 rb.2.2.2
    let g : Gate :=
      ⟨ra.2.1.getD 0 0, rb.2.1.getD 0 0, rc.2.1.getD 0 0,
       ra.2.2.1.getD 0 0 * rb.2.2.1.getD 0 0,
       ra.2.2.1.getD 0 0 * rb.1,
       ra.1 * rb.2.2.1.getD 0 0,
       -(rc.2.2.1.getD 0 0),
       ra.1 * rb.1 - rc.1⟩
    add_constraint_mul a b c st
        = { rc.2.2.2 with constraints := rc.2.2.2.constraints ++ [g] }
    ∧ ∀ w : ℕ → F,
        gateEval g w
          = (ra.2.2.1.getD 0 0 * w (ra.2.1.getD 0 0) + ra.1)
              * (rb.2.2.1.getD 0 0 * w (rb.2.1.getD 0 0) + rb.1)
            - (rc.2.2.1.getD 0 0 * w (rc.2.1.getD 0 0) + rc.1) := by
  refine ⟨rfl, ?_⟩
  intro w
  simp only [gateEval]
  ring

/-- Claim C7: one iteration of the `reduce_coefs` allocation loop removes the
first two pending pairs in FIFO order, emits the gate
`(s₁, s₂, so, 0, −v₁, −v₂, 1, 0)` at the fresh wire `so = plonk_n_vars`,
appends the record `(s₁, s₂, v₁, v₂)` at the matching position of
`plonk_additions`, and pushes `(so, 1)` to the back of the pending list; the
emitted gate vanishes on a witness `w` exactly when
`w[so] = v₁·w[s₁] + v₂·w[s₂]`. -/
theorem claim_C7 (maxC : ℕ) (s1 s2 : ℕ) (v1 v2 : F) (rest : List (ℕ × F)) (st : PState)
    (h : maxC < rest.length + 2) :
    reduceLoop maxC ((s1, v1) :: (s2, v2) :: rest) st
      = reduceLoop maxC (rest ++ [(st.nVars, 1)])
          ⟨st.nVars + 1,
           st.constraints ++ [⟨s1, s2, st.nVars, 0, -v1, -v2, 1, 0⟩],
           st.additions ++ [⟨s1, s2, v1, v2⟩]⟩
    ∧ ∀ w : ℕ → F,
        gateEval ⟨s1, s2, st.nVars, 0, -v1, -v2, 1, 0⟩ w = 0 ↔
          w st.nVars = v1 * w s1 + v2 * w s2 := by
  constructor
  · exact reduceLoop_step maxC (s1, v1) (s2, v2) rest st h
  · intro w
    simp only [gateEval]
    constructor
    · intro hw
      linear_combination hw
    · intro hw
      linear_combination hw

/-- Claim C7, witnessed at `max_c = 1` with pending pairs
`(1,1), (2,1)` and `plonk_n_vars = 3`. -/
theorem claim_C7_witness :
    reduceLoop 1 [((1 : ℕ), (1 : F)), (2, 1)] ⟨3, [], []⟩
      = reduceLoop 1 [(3, 1)] ⟨4, [⟨1, 2, 3, 0, -1, -1, 1, 0⟩], [⟨1, 2, 1, 1⟩]⟩
    ∧ ∀ w : ℕ → F,
        gateEval ⟨1, 2, 3, 0, -1, -1, 1, 0⟩ w = 0 ↔ w 3 = 1 * w 1 + 1 * w 2 :=
  claim_C7 1 1 2 1 1 [] ⟨3, [], []⟩ (by decide)

/-- Claim C8: wire monotonicity.  The final `plonk_n_vars` equals the
initial `n_vars` plus the number of addition records; `plonk_n_vars` never
decreases along the constraint loop; inside `reduce_coefs` the `j`-th newly
appended gate sits at the same relative offset as the `j`-th newly appended
addition record and allocates exactly the wire `plonk_n_vars + j` (one
increment per record); and when `n_vars ≥ 1` no allocation ever targets
wire 0. -/
theorem claim_C8 (r : R1cs) :
    ((process_constraints r).nVars
        = r.header.n_vars + (process_constraints r).additions.length)
    ∧ (∀ pre post : List (LC × LC × LC), r.constraints = pre ++ post →
          r.header.n_vars ≤ (pre.foldl processStep (initState r)).nVars
          ∧ (pre.foldl processStep (initState r)).nVars ≤ (process_constraints r).nVars)
    ∧ (∀ (maxC : ℕ) (cs : List (ℕ × F)) (st : PState),
          (reduceLoop maxC cs st).2.nVars
              = st.nVars + ((reduceLoop maxC cs st).2.additions.length - st.additions.length)
          ∧ st.additions.length ≤ (reduceLoop maxC cs st).2.additions.length
          ∧ ∀ j : ℕ,
              ((reduceLoop maxC cs st).2.constraints).get? (st.constraints.length + j)
                = (((reduceLoop maxC cs st).2.additions).get? (st.additions.length + j)).map
                    fun a4 => addGate a4 (st.nVars + j))
    ∧ (1 ≤ r.header.n_vars →
          ∀ (maxC : ℕ) (cs : List (ℕ × F)) (st : PState) (j : ℕ) (g : Gate),
            r.header.n_vars ≤ st.nVars →
            ((reduceLoop maxC cs st).2.constraints).get? (st.constraints.length + j) = some g →
            1 ≤ g.so) := by
  have hrl : ∀ (maxC : ℕ) (cs : List (ℕ × F)) (st : PState),
      (reduceLoop maxC cs st).2.nVars
          = st.nVars + ((reduceLoop maxC cs st).2.additions.length - st.additions.length)
      ∧ st.additions.length ≤ (reduceLoop maxC cs st).2.additions.length
      ∧ ∀ j : ℕ,
          ((reduceLoop maxC cs st).2.constraints).get? (st.constraints.length + j)
            = (((reduceLoop maxC cs st).2.additions).get? (st.additions.length + j)).map
                fun a4 => addGate a4 (st.nVars + j) := by
    intro maxC cs st
    have he := reduceLoop_eq maxC cs st
    have ha := reduceLoop_alloc maxC cs st.nVars
    rw [he]
    refine ⟨?_, ?_, ?_⟩
    · simp only [List.length_append]
      rw [show (rlN maxC cs st.nVars = st.nVars + (rlA maxC cs st.nVars).length) from ha.1]
      omega
    · simp
    · intro j
      simp only []
      rw [List.get?_append_right (by omega), List.get?_append_right (by omega)]
      simp only [Nat.add_sub_cancel_left]
      exact ha.2 j
  refine ⟨?_, ?_, hrl, ?_⟩
  · rw [process_constraints, foldl_processStep_eq r.constraints (initState r)]
    simp only [initState]
    rw [foldl_processStep_delta]
    simp
  · intro pre post hsplit
    have hpre : r.header.n_vars ≤ (pre.foldl processStep (initState r)).nVars := by
      rw [foldl_processStep_eq pre (initState r)]
      simp only [initState]
      rw [foldl_processStep_delta]
      omega
    refine ⟨hpre, ?_⟩
    rw [process_constraints, hsplit, List.foldl_append]
    rw [foldl_processStep_eq post (pre.foldl processStep (initState r))]
    simp only []
    rw [foldl_processStep_delta]
    omega
  · intro hpos maxC cs st j g hge hsome
    have h3 := (hrl maxC cs st).2.2 j
    rw [hsome] at h3
    cases hA : ((reduceLoop maxC cs st).2.additions).get? (st.additions.length + j) with
    | none => rw [hA] at h3; simp at h3
    | some a4 =>
      rw [hA] at h3
      simp only [Option.map_some'] at h3
      have hso : g.so = st.nVars + j := by
        have := h3.symm
        injection this with h'
        rw [← h']
        rfl
      omega

/-- A small sample R1CS used to witness the universally quantified claims:
`n_vars = 4`, one public output, and a single constraint `0·0 = w[2]`. -/
def sampleR1cs : R1cs :=
  ⟨⟨32, bn254r, 4, 1, 0, 0, 4, 1, false⟩, [([], [], [(2, 1)])]⟩

/-- Claim C8, witnessed on `sampleR1cs`: the final `plonk_n_vars` equals
`n_vars` plus the number of addition records, and `plonk_n_vars` never
drops below the initial `n_vars = 4` at the start of the constraint loop. -/
theorem claim_C8_witness :
    ((process_constraints sampleR1cs).nVars
        = 4 + (process_constraints sampleR1cs).additions.length)
    ∧ (4 : ℕ) ≤ (([] : List (LC × LC × LC)).foldl processStep (initState sampleR1cs)).nVars :=
  ⟨(claim_C8 sampleR1cs).1,
   ((claim_C8 sampleR1cs).2.1 [] sampleR1cs.constraints rfl).1⟩

/-- Claim C4: the first `n_public = n_outputs + n_pub_inputs` gates of the
output are exactly `(s, 0, 0, qm=0, ql=1, qr=0, qo=0, qc=0)` for
`s = 1..n_public` in increasing order, and they precede every
constraint-derived gate.  (The `u32` sum `n_outputs + n_pub_inputs` must
fit, which holds for every header the program accepts.) -/
theorem claim_C4 (r : R1cs)
    (hfit : r.header.n_outputs + r.header.n_pub_inputs < 2 ^ 32) :
    (process_constraints r).constraints.take (n_public r.header)
        = (List.range (n_public r.header)).map (fun i => pubGate (i + 1))
    ∧ (process_constraints r).constraints.drop (n_public r.header) = constraint_gates r := by
  have h := foldl_processStep_eq r.constraints (initState r)
  have hc : (process_constraints r).constraints
      = ((List.range (n_public r.header)).map fun i => pubGate (i + 1))
        ++ psG r.constraints r.header.n_vars := by
    rw [process_constraints, h]
    simp [initState]
  have hlen : ((List.range (n_public r.header)).map fun i => pubGate (i + 1)).length
      = n_public r.header := by
    simp
  constructor
  · rw [hc, List.take_left' hlen]
  · rw [hc, List.drop_left' hlen]
    rw [constraint_gates, foldl_processStep_eq r.constraints ⟨r.header.n_vars, [], []⟩]
    simp

/-- Claim C4, witnessed on `sampleR1cs` (`n_public = 1`). -/
theorem claim_C4_witness :
    (process_constraints sampleR1cs).constraints.take 1
        = (List.range 1).map (fun i => pubGate (i + 1))
    ∧ (process_constraints sampleR1cs).constraints.drop 1 = constraint_gates sampleR1cs :=
  claim_C4 sampleR1cs (by decide)

/-! ### Claim C1: run-to-run determinism

`process_constraints` iterates `HashMap`s directly (`for (&s, v) in lc` in
`reduce_coefs`, src/r1cs.rs line 82).  `std::collections::HashMap` iteration
order is unspecified: `RandomState` draws fresh keys per map, so two runs of
the program on the same R1CS file can consume the same linear combination in
different orders.  The two `LC` values below are the same finite map — only
the modelled iteration order differs — yet the lowerer emits different gate
lists, so the output is not a function of the R1CS input alone. -/

def nondetHeader : R1csHeader := ⟨32, bn254r, 3, 0, 0, 0, 3, 1, false⟩

/-- The map `{1 ↦ 1, 2 ↦ 1}` iterated as `(1,1), (2,1)`. -/
def lcOrderA : LC := [(1, 1), (2, 1)]

/-- The same map iterated as `(2,1), (1,1)`. -/
def lcOrderB : LC := [(2, 1), (1, 1)]

def runA : R1cs := ⟨nondetHeader, [([], [], lcOrderA)]⟩

def runB : R1cs := ⟨nondetHeader, [([], [], lcOrderB)]⟩

/-- Claim C1 fails on the code: the input constraint `0·0 = w[1] + w[2]` is
one and the same finite map in both runs (`lcOrderA` is a permutation of
`lcOrderB`), but the emitted `plonk_constraints` differ — the sum gate's
`(sl, sr)` wires follow the hash map's iteration order. -/
theorem claim_C1_hashmap_order :
    lcOrderA.Perm lcOrderB
    ∧ (process_constraints runA).constraints ≠ (process_constraints runB).constraints := by
  have h0 : (get_lc_type ([] : LC)).1 = "0" ∨ (get_lc_type ([] : LC)).1 = "0" :=
    Or.inl (by decide)
  have hnA : normalize lcOrderA = [((1 : ℕ), (1 : F)), (2, 1)] := by decide
  have hnB : normalize lcOrderB = [((2 : ℕ), (1 : F)), (1, 1)] := by decide
  have hfA1 : (([((1 : ℕ), (1 : F)), (2, 1)] : LC).filter fun p => p.1 == 0) = [] := by decide
  have hfA2 : (([((1 : ℕ), (1 : F)), (2, 1)] : LC).filter fun p => !(p.1 == 0))
      = [((1 : ℕ), (1 : F)), (2, 1)] := by decide
  have hfB1 : (([((2 : ℕ), (1 : F)), (1, 1)] : LC).filter fun p => p.1 == 0) = [] := by decide
  have hfB2 : (([((2 : ℕ), (1 : F)), (1, 1)] : LC).filter fun p => !(p.1 == 0))
      = [((2 : ℕ), (1 : F)), (1, 1)] := by decide
  have hredA : reduceLoop 3 [((1 : ℕ), (1 : F)), (2, 1)] ⟨3, [], []⟩
      = ([((1 : ℕ), (1 : F)), (2, 1)], ⟨3, [], []⟩) :=
    reduceLoop_done 3 _ _ (by decide)
  have hredB : reduceLoop 3 [((2 : ℕ), (1 : F)), (1, 1)] ⟨3, [], []⟩
      = ([((2 : ℕ), (1 : F)), (1, 1)], ⟨3, [], []⟩) :=
    reduceLoop_done 3 _ _ (by decide)
  have hsumA : add_constraint_sum [((1 : ℕ), (1 : F)), (2, 1)] ⟨3, [], []⟩
      = ⟨3, [⟨1, 2, 0, 0, 1, 1, 0, 0⟩], []⟩ := by
    simp only [add_constraint_sum, reduce_coefs, hfA1, hfA2, hredA]
    decide
  have hsumB : add_constraint_sum [((2 : ℕ), (1 : F)), (1, 1)] ⟨3, [], []⟩
      = ⟨3, [⟨2, 1, 0, 0, 1, 1, 0, 0⟩], []⟩ := by
    simp only [add_constraint_sum, reduce_coefs, hfB1, hfB2, hredB]
    decide
  have hA : process_constraints runA = ⟨3, [⟨1, 2, 0, 0, 1, 1, 0, 0⟩], []⟩ := by
    show process [] [] lcOrderA ⟨3, [], []⟩ = _
    simp only [process]
    rw [if_pos h0, hnA]
    exact hsumA
  have hB : process_constraints runB = ⟨3, [⟨2, 1, 0, 0, 1, 1, 0, 0⟩], []⟩ := by
    show process [] [] lcOrderB ⟨3, [], []⟩ = _
    simp only [process]
    rw [if_pos h0, hnB]
    exact hsumB
  refine ⟨by decide, ?_⟩
  rw [congrArg PState.constraints hA, congrArg PState.constraints hB]
  decide

/-! ### Claim C2: the zkey section-3 (Additions) writer -/

/-- `u32::to_le_bytes` and friends: fixed-width little-endian bytes. -/
def natLE : ℕ → ℕ → List ℕ
  | 0, _ => []
  | n + 1, v => v % 256 :: natLE n (v / 256)

/-- Little-endian byte expansion, structurally fuelled (64 bytes covers
every value `< 2^512`; all scalars here are `< r < 2^254`). -/
def minBytesAux : ℕ → ℕ → List ℕ
  | 0, _ => []
  | fuel + 1, v => if v = 0 then [] else v % 256 :: minBytesAux fuel (v / 256)

/-- `BigUint::to_bytes_le` (num-bigint): minimal length, `[0]` for zero. -/
def toBytesLE (v : ℕ) : List ℕ := if v = 0 then [0] else minBytesAux 64 v

/-- `ToMontgomeryBytes::as_montgomery_bytes` (src/main.rs lines 126-134):
despite the trait name, this is `self.to_biguint().to_bytes_le()` — the
canonical value's minimal little-endian bytes, with no padding to `n8r`. -/
def as_montgomery_bytes (v : F) : List ℕ := toBytesLE v.val

/-- One pass of the `write_additions` loop body (src/main.rs lines 147-169).
The buffer of size `8 + 2·n8r` is fully overwritten by the four
`copy_from_slice` calls; `&v1_bytes[..n8r]` panics (modelled `none`) when
the minimal encoding has fewer than `n8r` bytes. -/
def writeRecord (n8r : ℕ) (ad : Addition) : Option (List ℕ) :=
  let v1b := as_montgomery_bytes ad.v1
  let v2b := as_montgomery_bytes ad.v2
  if n8r ≤ v1b.length ∧ n8r ≤ v2b.length then
    some (natLE 4 ad.a ++ natLE 4 ad.b ++ v1b.take n8r ++ v2b.take n8r)
  else none

/-- `write_additions` (src/main.rs lines 136-174): the concatenated
section-3 payload, or `none` when any record write panics. -/
def write_additions (n8r : ℕ) (adds : List Addition) : Option (List ℕ) :=
  (adds.mapM (writeRecord n8r)).map List.flatten

/-- Claim C2 fails on the code: `as_montgomery_bytes` yields minimal-length
bytes, so for the addition record `(1, 2, 1, 1)` — which `reduce_coefs`
produces whenever it merges two unit-coefficient wires — the one-byte
encoding `[1]` of `v1 = 1` makes `&v1_bytes[..32]` index out of bounds and
the writer panics instead of emitting the `8 + 2·n8r`-byte record. -/
theorem claim_C2_short_scalar_panics :
    as_montgomery_bytes (1 : F) = [1]
    ∧ write_additions 32 [⟨1, 2, 1, 1⟩] = none := by
  constructor
  · decide
  · decide

/-! ### Claim C3: the curve registry and the PTau header reader -/

/-- Outcome of running a fallible routine: a returned value, a returned
error (Rust `Err`), or a process abort (Rust panic, e.g. `unwrap` on
`Err`). -/
inductive RunResult (α : Type) where
  | ok (a : α)
  | err (e : String)
  | panicked (e : String)
deriving DecidableEq

/-- `Curve` (src/curves.rs lines 25-33); the `fr` field handle is selected
by the same match and carries no further data needed here. -/
structure Curve where
  n64 : ℕ
  q : ℕ
  r : ℕ
  n8q : ℕ
  n8r : ℕ
deriving DecidableEq

/-- BN254 base-field modulus (src/curves.rs lines 42-46). -/
def bn128_q : ℕ :=
  21888242871839275222246405745257275088696311157297823662689037894645226208583

/-- BLS12-381 base-field modulus (src/curves.rs line 48). -/
def bls12_381_q : ℕ :=
  0x1a0111ea397fe69a4b1ba7b6434bacd764774b84f38512bf6730d2a0f6b0f6241eabfffeb153ffffb9feffffffffaaab

/-- BLS12-381 scalar-field modulus (src/curves.rs lines 52-55). -/
def bls12_381_r : ℕ :=
  0x73eda753299d7d483339d80809a1d80553bda402fffe5bfeffffffff00000001

/-- `get_curve_from_q` (src/curves.rs lines 41-79): exact match on the two
supported moduli, otherwise `bail!`. -/
def get_curve_from_q (q : ℕ) : Except String Curve :=
  if q = bn128_q then Except.ok ⟨4, bn128_q, bn254r, 32, 32⟩
  else if q = bls12_381_q then Except.ok ⟨6, bls12_381_q, bls12_381_r, 48, 32⟩
  else Except.error ("Curve not supported: " ++ toString q)

/-- `BinFile::read_u32` (src/file.rs lines 60-65): four little-endian
bytes, or a read error on truncation. -/
def readU32 : List ℕ → Option (ℕ × List ℕ)
  | b0 :: b1 :: b2 :: b3 :: rest => some (b0 + 256 * (b1 + 256 * (b2 + 256 * b3)), rest)
  | _ => none

/-- `BigUint::from_bytes_le`. -/
def bytesToNat (bs : List ℕ) : ℕ := bs.foldr (fun b acc => b + 256 * acc) 0

/-- A section as the header reader sees it: the declared size from the
descriptor, and the file bytes from the section's offset onward. -/
structure Sec where
  declSize : ℕ
  content : List ℕ
deriving DecidableEq

/-- `read_ptau_header` (src/file.rs lines 181-222).  The crucial line is
file.rs:199, `get_curve_from_q(&q_biguint).unwrap()`: an unsupported
modulus aborts the process instead of propagating the error. -/
def read_ptau_header (sections : List (ℕ × Sec)) : RunResult (Curve × ℕ × ℕ) :=
  match (sections.filter fun p => p.1 == 1).map Prod.snd with
  | [] => RunResult.err "ptau: File has no header section (1)"
  | _ :: _ :: _ => RunResult.err "ptau: File has more than one header section"
  | [sec] =>
    match readU32 sec.content with
    | none => RunResult.err "Truncated"
    | some (n8, r1) =>
      if n8 ≤ r1.length then
        match get_curve_from_q (bytesToNat (r1.take n8)) with
        | Except.error e => RunResult.panicked e
        | Except.ok curve =>
          if curve.n64 * 8 ≠ n8 then
            RunResult.err "Invalid size"
          else
            match readU32 (r1.drop n8) with
            | none => RunResult.err "Truncated"
            | some (power, r2) =>
              match readU32 r2 with
              | none => RunResult.err "Truncated"
              | some (cpower, _) =>
                if 4 + n8 + 4 + 4 ≠ sec.declSize then
                  RunResult.err "Invalid PTau header size"
                else RunResult.ok (curve, power, cpower)
      else RunResult.err "Truncated"

/-- Claim C3 fails on the code: for a PTau header whose modulus is `5`
(neither supported curve), `get_curve_from_q` does return the
`UnsupportedCurve` error, but `read_ptau_header` unwraps it at
src/file.rs:199 and panics — the caller receives no error result. -/
theorem claim_C3_unwrap_panics :
    get_curve_from_q 5 = Except.error "Curve not supported: 5"
    ∧ read_ptau_header [(1, ⟨13, [1, 0, 0, 0, 5]⟩)]
        = RunResult.panicked "Curve not supported: 5" := by
  constructor
  · rfl
  · rfl

/-! ### Claim C10: duplicate wire indices in `read_constraints` -/

/-- `HashMap::insert` on the association-list model: overwrite the entry for
the key if present, else append. -/
def hmInsert (m : List (ℕ × ℕ)) (k v : ℕ) : List (ℕ × ℕ) :=
  if m.any fun p => p.1 == k then m.map fun p => if p.1 == k then (k, v) else p
  else m ++ [(k, v)]

/-- HashMap lookup on the model. -/
def hmFind (m : List (ℕ × ℕ)) (k : ℕ) : Option ℕ :=
  (m.find? fun p => p.1 == k).map Prod.snd

/-- The inner record loop of one linear combination in `read_constraints`
(src/file.rs lines 343-352): `n_idx` records of `idx:u32` followed by
`coeff:bytes[n8]`, each inserted with `lc.insert(idx, coeff)`; `none`
models the out-of-bounds slice panic on a truncated buffer. -/
def readLCAux (n8 : ℕ) : ℕ → List ℕ → List (ℕ × ℕ) → Option (List (ℕ × ℕ) × List ℕ)
  | 0, buf, lc => some (lc, buf)
  | n + 1, buf, lc =>
    match readU32 buf with
    | none => none
    | some (idx, rest) =>
      if n8 ≤ rest.length then
        readLCAux n8 n (rest.drop n8) (hmInsert lc idx (bytesToNat (rest.take n8)))
      else none

/-- One linear combination: `n_idx:u32` then the records. -/
def readLC (n8 : ℕ) (buf : List ℕ) : Option (List (ℕ × ℕ) × List ℕ) :=
  match readU32 buf with
  | none => none
  | some (nIdx, rest) => readLCAux n8 nIdx rest []

/-- One constraint: the `A`, `B`, `C` linear combinations in order
(src/file.rs lines 338-353). -/
def readTriple (n8 : ℕ) (buf : List ℕ) :
    Option ((List (ℕ × ℕ) × List (ℕ × ℕ) × List (ℕ × ℕ)) × List ℕ) :=
  match readLC n8 buf with
  | none => none
  | some (a, buf1) =>
    match readLC n8 buf1 with
    | none => none
    | some (b, buf2) =>
      match readLC n8 buf2 with
      | none => none
      | some (c, buf3) => some ((a, b, c), buf3)

def readConstraintsAux (n8 : ℕ) : ℕ → List ℕ →
    Option (List (List (ℕ × ℕ) × List (ℕ × ℕ) × List (ℕ × ℕ)) × List ℕ)
  | 0, buf => some ([], buf)
  | n + 1, buf =>
    match readTriple n8 buf with
    | none => none
    | some (t, buf1) =>
      match readConstraintsAux n8 n buf1 with
      | none => none
      | some (ts, buf2) => some (t :: ts, buf2)

/-- `read_constraints` (src/file.rs lines 315-363): exactly `n_constraints`
triples, and the section buffer must be fully consumed. -/
def read_constraints (n8 nCons : ℕ) (buf : List ℕ) :
    Option (List (List (ℕ × ℕ) × List (ℕ × ℕ) × List (ℕ × ℕ))) :=
  match readConstraintsAux n8 nCons buf with
  | none => none
  | some (ts, rest) => if rest = [] then some ts else none

lemma find?_cons_pos {α : Type} (P : α → Bool) (a : α) (l : List α) (h : P a = true) :
    (a :: l).find? P = some a := by
  rw [List.find?_cons, h]

lemma find?_cons_neg {α : Type} (P : α → Bool) (a : α) (l : List α) (h : P a = false) :
    (a :: l).find? P = l.find? P := by
  rw [List.find?_cons, h]

lemma find?_eq_head?_filter {α : Type} (p : α → Bool) (l : List α) :
    l.find? p = (l.filter p).head? := by
  induction l with
  | nil => rfl
  | cons a l IH =>
    cases h : p a with
    | true => rw [find?_cons_pos p a l h, List.filter_cons, if_pos h]; rfl
    | false => rw [find?_cons_neg p a l h, List.filter_cons, if_neg (by simp [h]), IH]

lemma find?_append_first {α : Type} (p : α → Bool) (l1 l2 : List α) (q : α)
    (h : l1.find? p = some q) : (l1 ++ l2).find? p = some q := by
  induction l1 with
  | nil => simp [List.find?] at h
  | cons a l1 IH =>
    rw [List.cons_append, List.find?_cons]
    rw [List.find?_cons] at h
    cases hp : p a with
    | true => rw [hp] at h; simpa using h
    | false => rw [hp] at h; simp only []; exact IH h

lemma find?_append_none {α : Type} (p : α → Bool) (l1 l2 : List α)
    (h : l1.find? p = none) : (l1 ++ l2).find? p = l2.find? p := by
  induction l1 with
  | nil => simp
  | cons a l1 IH =>
    rw [List.cons_append, List.find?_cons]
    rw [List.find?_cons] at h
    cases hp : p a with
    | true => rw [hp] at h; simp at h
    | false => rw [hp] at h; simp only []; exact IH h

lemma hmFind_insert (m : List (ℕ × ℕ)) (k v i : ℕ) :
    hmFind (hmInsert m k v) i = if i = k then some v else hmFind m i := by
  have hmap : ∀ m' : List (ℕ × ℕ),
      ((m'.map fun p => if p.1 == k then (k, v) else p).find? fun p => p.1 == i)
        = if i = k then (if m'.any fun p => p.1 == k then some (k, v) else none)
          else m'.find? fun p => p.1 == i := by
    intro m'
    induction m' with
    | nil =>
      by_cases h : i = k
      · rw [if_pos h]
        simp
      · rw [if_neg h]
        simp
    | cons q m' IH =>
      simp only [List.map_cons]
      by_cases hq : q.1 = k
      · rw [if_pos (by simp [hq])]
        by_cases hik : i = k
        · subst hik
          rw [find?_cons_pos (fun p => p.1 == i) (i, v) _ (by simp)]
          rw [if_pos rfl, if_pos (by simp [List.any_cons, hq])]
        · have h1 : ((k, v).1 == i) = false := by
            simp only [beq_eq_false_iff_ne, ne_eq]
            exact fun h => hik h.symm
          rw [find?_cons_neg (fun p => p.1 == i) (k, v) _ h1, IH, if_neg hik, if_neg hik]
          rw [find?_cons_neg (fun p => p.1 == i) q _ (by
            simp only [beq_eq_false_iff_ne, ne_eq, hq]
            exact fun h => hik h.symm)]
      · rw [if_neg (by simp [hq])]
        by_cases hqi : q.1 = i
        · have hik : ¬i = k := fun h => hq (hqi.trans h)
          rw [find?_cons_pos (fun p => p.1 == i) q _ (by simp [hqi]), if_neg hik]
          rw [find?_cons_pos (fun p => p.1 == i) q _ (by simp [hqi])]
        · rw [find?_cons_neg (fun p => p.1 == i) q _ (by simp [hqi]), IH]
          by_cases hik : i = k
          · subst hik
            rw [if_pos rfl, if_pos rfl]
            rw [show ((q :: m').any fun p => p.1 == i) = (m'.any fun p => p.1 == i) from by
              simp [List.any_cons, hq]]
          · rw [if_neg hik, if_neg hik]
            rw [find?_cons_neg (fun p => p.1 == i) q _ (by simp [hqi])]
  rw [hmInsert]
  by_cases hmem : m.any fun p => p.1 == k
  · rw [if_pos hmem]
    simp only [hmFind, hmap m, hmem, if_pos]
    by_cases hik : i = k
    · rw [if_pos hik, if_pos hik]
      simp
    · rw [if_neg hik, if_neg hik]
  · rw [if_neg hmem]
    have hnone : m.find? (fun p => p.1 == k) = none := by
      rw [List.find?_eq_none]
      intro x hx hxk
      exact hmem (List.any_eq_true.mpr ⟨x, hx, hxk⟩)
    by_cases hik : i = k
    · subst hik
      simp only [hmFind]
      rw [find?_append_none _ _ _ hnone]
      simp
    · simp only [hmFind, if_neg hik]
      cases hf : m.find? fun p => p.1 == i with
      | some q => rw [find?_append_first _ _ _ _ hf]
      | none =>
        rw [find?_append_none _ _ _ hf]
        rw [find?_cons_neg (fun p => p.1 == i) (k, v) [] (by
          simp only [beq_eq_false_iff_ne, ne_eq]
          exact fun h => hik h.symm)]
        simp

lemma hmFind_foldl (records : List (ℕ × ℕ)) (acc : List (ℕ × ℕ)) (i : ℕ) :
    hmFind (records.foldl (fun m p => hmInsert m p.1 p.2) acc) i
      = match records.reverse.find? (fun p => p.1 == i) with
        | some q => some q.2
        | none => hmFind acc i := by
  induction records generalizing acc with
  | nil => simp
  | cons p rs IH =>
    simp only [List.foldl_cons, List.reverse_cons]
    rw [IH]
    cases hfr : rs.reverse.find? fun q => q.1 == i with
    | some q => rw [find?_append_first _ _ _ _ hfr]
    | none =>
      rw [find?_append_none _ _ _ hfr]
      rw [hmFind_insert]
      by_cases hip : i = p.1
      · simp [List.find?_cons, hip]
      · have h1 : (p.1 == i) = false := by
          simp only [beq_eq_false_iff_ne, ne_eq]
          exact fun h => hip h.symm
        simp [List.find?_cons, h1, hip]

/-- Claim C10: when an on-disk linear combination repeats a wire index,
`read_constraints` keeps only the coefficient of the last occurrence —
later `lc.insert(idx, coeff)` calls overwrite earlier ones — and the
coefficients are not summed.  Conjunct one parses a section (`n8 = 1`, one
constraint) whose `A` part carries the records `(7, 1)` then `(7, 2)` and
yields `{7 ↦ 2}`; conjunct two rules out the summed map `{7 ↦ 3}`;
conjunct three states the general law: the value stored for each wire is
the last coefficient inserted for it. -/
theorem claim_C10_last_occurrence_wins :
    read_constraints 1 1
        [2, 0, 0, 0, 7, 0, 0, 0, 1, 7, 0, 0, 0, 2, 0, 0, 0, 0, 0, 0, 0, 0]
      = some [([(7, 2)], [], [])]
    ∧ read_constraints 1 1
        [2, 0, 0, 0, 7, 0, 0, 0, 1, 7, 0, 0, 0, 2, 0, 0, 0, 0, 0, 0, 0, 0]
      ≠ some [([(7, 3)], [], [])]
    ∧ ∀ (records : List (ℕ × ℕ)) (i : ℕ),
        hmFind (records.foldl (fun m p => hmInsert m p.1 p.2) []) i
          = ((records.filter fun p => p.1 == i).getLast?).map Prod.snd := by
  refine ⟨by decide, by decide, ?_⟩
  intro records i
  rw [hmFind_foldl records [] i]
  have h2 : records.reverse.find? (fun p => p.1 == i)
      = (records.filter fun p => p.1 == i).getLast? := by
    rw [find?_eq_head?_filter]
    rw [List.filter_reverse]
    rw [List.head?_reverse]
  rw [h2]
  cases (records.filter fun p => p.1 == i).getLast? with
  | some q => rfl
  | none => simp [hmFind]

/-! ### Claim C9: domain setup (`get_k1_k2`, src/main.rs lines 83-124).
The function is monomorphic over the BN254 scalar field in the binary, so
the model fixes `r = bn254r`. -/

/-- Square-and-multiply modular exponentiation (the semantics of
`Element::exponentiation`), structurally fuelled; 300 bits of fuel cover
every exponent `< 2^300`, in particular everything below `r`. -/
def powModAux (a n : ℕ) : ℕ → ℕ → ℕ
  | 0, _ => 1 % n
  | fuel + 1, e =>
    if e = 0 then 1 % n
    else
      let h := powModAux a n fuel (e / 2)
      if e % 2 = 1 then h * h % n * a % n else h * h % n

def powMod (a e n : ℕ) : ℕ := powModAux a n 300 e

lemma powModAux_correct (a n : ℕ) :
    ∀ (fuel e : ℕ), e < 2 ^ fuel → powModAux a n fuel e = a ^ e % n := by
  intro fuel
  induction fuel with
  | zero =>
    intro e he
    have he0 : e = 0 := by omega
    subst he0
    simp [powModAux]
  | succ fuel IH =>
    intro e he
    by_cases he0 : e = 0
    · subst he0
      simp [powModAux]
    · have h2p : 2 ^ (fuel + 1) = 2 * 2 ^ fuel := by ring
      have hdiv : e / 2 < 2 ^ fuel := by omega
      have hh := IH (e / 2) hdiv
      rw [powModAux, if_neg he0]
      simp only [hh]
      have hcong : a ^ (e / 2) % n * (a ^ (e / 2) % n)
          ≡ a ^ (e / 2) * a ^ (e / 2) [MOD n] :=
        (Nat.mod_modEq _ _).mul (Nat.mod_modEq _ _)
      have hcongm : a ^ (e / 2) % n * (a ^ (e / 2) % n) % n
          ≡ a ^ (e / 2) * a ^ (e / 2) [MOD n] :=
        (Nat.mod_modEq _ _).trans hcong
      by_cases hodd : e % 2 = 1
      · rw [if_pos hodd]
        have heq : a ^ (e / 2) * a ^ (e / 2) * a = a ^ e := by
          rw [← pow_add, ← pow_succ]
          congr 1
          omega
        have hstep := hcongm.mul_right a
        calc a ^ (e / 2) % n * (a ^ (e / 2) % n) % n * a % n
            = (a ^ (e / 2) * a ^ (e / 2) * a) % n := hstep
          _ = a ^ e % n := by rw [heq]
      · rw [if_neg hodd]
        have heq : a ^ (e / 2) * a ^ (e / 2) = a ^ e := by
          rw [← pow_add]
          congr 1
          omega
        calc a ^ (e / 2) % n * (a ^ (e / 2) % n) % n
            = (a ^ (e / 2) * a ^ (e / 2)) % n := hcong
          _ = a ^ e % n := by rw [heq]

lemma powMod_correct (a e n : ℕ) (he : e < 2 ^ 300) : powMod a e n = a ^ e % n :=
  powModAux_correct a n 300 e he

/-- Casting the computed power into the field. -/
lemma powMod_castF (a e : ℕ) (he : e < 2 ^ 300) :
    ((powMod a e bn254r : ℕ) : F) = (a : F) ^ e := by
  rw [powMod_correct a e bn254r he]
  push_cast [ZMod.natCast_mod]
  ring

/-- `is_included` (src/main.rs lines 90-109): walk `cur = 1, ω, ω², …` for
`domain_size` steps, testing `k == cur` and `k == e·cur` for every already
chosen coset offset `e`. -/
def isIncludedAux (k : ℕ) (existing : List ℕ) (w : ℕ) : ℕ → ℕ → Bool
  | 0, _ => false
  | steps + 1, cur =>
    (k == cur) || (existing.any fun e => k == e * cur % bn254r)
      || isIncludedAux k existing w steps (cur * w % bn254r)

def is_included (k : ℕ) (existing : List ℕ) (w : ℕ) (domain_size : ℕ) : Bool :=
  isIncludedAux k existing w domain_size 1

/-- The `while is_included(k, …) { k = k + one }` search (src/main.rs lines
111-121), fuelled: `none` means the fuel ran out before the loop exited. -/
def findK (existing : List ℕ) (w ds : ℕ) : ℕ → ℕ → Option ℕ
  | 0, _ => none
  | fuel + 1, k =>
    if is_included k existing w ds then findK existing w ds fuel (k + 1) else some k

/-- `ω = 2^((r−1) >> pow) mod r` (src/main.rs lines 87-88). -/
def omegaOf (pow : ℕ) : ℕ := powMod 2 ((bn254r - 1) / 2 ^ pow) bn254r

/-- `get_k1_k2` (src/main.rs lines 83-124). -/
def get_k1_k2 (pow : ℕ) (fuel : ℕ) : Option (ℕ × ℕ) :=
  let ds := 2 ^ pow
  let w := omegaOf pow
  match findK [] w ds fuel 2 with
  | none => none
  | some k1 =>
    match findK [k1] w ds fuel (k1 + 1) with
    | none => none
    | some k2 => some (k1, k2)

/-- The subgroup generated by `ω` in the scalar field, as a set. -/
def Hset (pow : ℕ) : Set F := Set.range fun n : ℕ => ((omegaOf pow : ℕ) : F) ^ n

lemma castF_inj {a b : ℕ} (ha : a < bn254r) (hb : b < bn254r) :
    ((a : F) = (b : F)) ↔ a = b := by
  constructor
  · intro h
    have hva : ((a : ℕ) : F).val = a := ZMod.val_cast_of_lt ha
    have hvb : ((b : ℕ) : F).val = b := ZMod.val_cast_of_lt hb
    rw [← hva, ← hvb, h]
  · rintro rfl
    rfl

lemma bn254r_pos : 0 < bn254r := by decide

/-- The membership test of `is_included`, in field terms: after `steps`
iterations from `cur`, the candidate was matched iff it equals
`x · cur · wⁱ` for some `i < steps` and some `x` among `1 :: existing`. -/
lemma isIncludedAux_iff (k : ℕ) (hk : k < bn254r) (ex : List ℕ)
    (hex : ∀ x ∈ ex, x < bn254r) (w : ℕ) :
    ∀ (steps cur : ℕ), cur < bn254r →
      (isIncludedAux k ex w steps cur = true ↔
        ∃ i < steps, ∃ x ∈ (1 : ℕ) :: ex,
          (k : F) = (x : F) * ((cur : F) * ((w : ℕ) : F) ^ i)) := by
  intro steps
  induction steps with
  | zero =>
    intro cur hcur
    simp [isIncludedAux]
  | succ steps IH =>
    intro cur hcur
    rw [isIncludedAux]
    simp only [Bool.or_eq_true]
    constructor
    · intro h
      rcases h with (h | h) | h
      · have hkc : k = cur := by simpa using h
        subst hkc
        exact ⟨0, by omega, 1, by simp, by simp⟩
      · rw [List.any_eq_true] at h
        obtain ⟨x, hxmem, hx⟩ := h
        have hkx : k = x * cur % bn254r := by simpa using hx
        refine ⟨0, by omega, x, by simp [hxmem], ?_⟩
        rw [hkx]
        push_cast [ZMod.natCast_mod]
        ring
      · have hcur' : cur * w % bn254r < bn254r := Nat.mod_lt _ bn254r_pos
        obtain ⟨i, hi, x, hxmem, hxe⟩ := (IH (cur * w % bn254r) hcur').mp h
        refine ⟨i + 1, by omega, x, hxmem, ?_⟩
        rw [hxe]
        push_cast [ZMod.natCast_mod]
        ring
    · rintro ⟨i, hi, x, hxmem, hxe⟩
      match i with
      | 0 =>
        rcases List.mem_cons.mp hxmem with h1 | hx
        · left; left
          subst h1
          have hkc : (k : F) = (cur : F) := by
            rw [hxe]
            push_cast
            ring
          have : k = cur := (castF_inj hk hcur).mp hkc
          simpa using this
        · left; right
          rw [List.any_eq_true]
          refine ⟨x, hx, ?_⟩
          have hmod : x * cur % bn254r < bn254r := Nat.mod_lt _ bn254r_pos
          have hkc : (k : F) = ((x * cur % bn254r : ℕ) : F) := by
            rw [hxe]
            push_cast [ZMod.natCast_mod]
            ring
          have := (castF_inj hk hmod).mp hkc
          simpa using this
      | i + 1 =>
        right
        have hcur' : cur * w % bn254r < bn254r := Nat.mod_lt _ bn254r_pos
        apply (IH (cur * w % bn254r) hcur').mpr
        refine ⟨i, by omega, x, hxmem, ?_⟩
        rw [hxe]
        push_cast [ZMod.natCast_mod]
        ring

lemma is_included_iff (k : ℕ) (hk : k < bn254r) (ex : List ℕ)
    (hex : ∀ x ∈ ex, x < bn254r) (w ds : ℕ) :
    (is_included k ex w ds = true ↔
      ∃ i < ds, ∃ x ∈ (1 : ℕ) :: ex, (k : F) = (x : F) * ((w : ℕ) : F) ^ i) := by
  rw [is_included, isIncludedAux_iff k hk ex hex w ds 1 (by decide)]
  constructor
  · rintro ⟨i, hi, x, hx, he⟩
    refine ⟨i, hi, x, hx, ?_⟩
    rw [he]
    push_cast
    ring
  · rintro ⟨i, hi, x, hx, he⟩
    refine ⟨i, hi, x, hx, ?_⟩
    rw [he]
    push_cast
    ring

/-- The `k += 1` search returns the smallest candidate at or above `start`
on which `is_included` is false. -/
lemma findK_spec (ex : List ℕ) (w ds : ℕ) :
    ∀ (fuel start k : ℕ), findK ex w ds fuel start = some k →
      start ≤ k ∧ is_included k ex w ds = false
      ∧ ∀ j, start ≤ j → j < k → is_included j ex w ds = true := by
  intro fuel
  induction fuel with
  | zero =>
    intro start k h
    simp [findK] at h
  | succ fuel IH =>
    intro start k h
    rw [findK] at h
    by_cases hinc : is_included start ex w ds = true
    · rw [if_pos hinc] at h
      obtain ⟨h1, h2, h3⟩ := IH (start + 1) k h
      refine ⟨by omega, h2, ?_⟩
      intro j hj1 hj2
      by_cases hj : j = start
      · subst hj
        exact hinc
      · exact h3 j (by omega) hj2
    · rw [if_neg hinc] at h
      have hk : start = k := by
        injection h
      subst hk
      exact ⟨le_rfl, by simpa using hinc, fun j hj1 hj2 => absurd hj2 (by omega)⟩

/-- Powers of an element whose `ds`-th power is `1` reduce mod `ds`. -/
lemma pow_mem_bounded (ω : F) (ds : ℕ) (hds : 0 < ds) (hω : ω ^ ds = 1) (n : ℕ) :
    ∃ i < ds, ω ^ n = ω ^ i := by
  refine ⟨n % ds, Nat.mod_lt _ hds, ?_⟩
  conv_lhs => rw [← Nat.div_add_mod n ds]
  rw [pow_add, pow_mul, hω, one_pow, one_mul]

/-- If `a·ωⁱ = b·ωʲ` and `ω^ds = 1`, then `b` lies on `a`'s coset. -/
lemma pow_shift (ω : F) (ds : ℕ) (hds : 0 < ds) (hω : ω ^ ds = 1) (a b : F) (i j : ℕ)
    (h : a * ω ^ i = b * ω ^ j) : ∃ m : ℕ, b = a * ω ^ m := by
  refine ⟨i + (ds - j % ds), ?_⟩
  have hju : ω ^ j * ω ^ (ds - j % ds) = 1 := by
    rw [← pow_add]
    have hexp : j + (ds - j % ds) = ds * (j / ds + 1) := by
      rw [Nat.mul_add, Nat.mul_one]
      have := Nat.div_add_mod j ds
      have := Nat.mod_lt j hds
      omega
    rw [hexp, pow_mul, hω, one_pow]
  calc b = b * (ω ^ j * ω ^ (ds - j % ds)) := by rw [hju, mul_one]
    _ = (b * ω ^ j) * ω ^ (ds - j % ds) := by ring
    _ = (a * ω ^ i) * ω ^ (ds - j % ds) := by rw [← h]
    _ = a * ω ^ (i + (ds - j % ds)) := by rw [pow_add]; ring

/-- Claim C9, amended: for BN254's `r`, any `1 ≤ pow ≤ 28` (the 2-adicity
of `r − 1`) and `domain_size = 2^pow`, a successful `get_k1_k2` run
returns `k1` as the smallest integer from `2` lying outside `⟨ω⟩`, the
subgroup generated by `ω = 2^((r−1) >> pow) mod r` (whose order divides
`domain_size`; it is not of size `domain_size` — see the counterexample),
and `k2` as the smallest integer from `k1+1` outside `⟨ω⟩ ∪ k1·⟨ω⟩`;
consequently `⟨ω⟩`, `k1·⟨ω⟩`, `k2·⟨ω⟩` are pairwise disjoint. -/
theorem claim_C9_amended (pow fuel k1 k2 : ℕ) (hpow1 : 1 ≤ pow) (hpow28 : pow ≤ 28)
    (hrun : get_k1_k2 pow fuel = some (k1, k2)) (hk2r : k2 < bn254r) :
    (2 ≤ k1 ∧ ((k1 : F) ∉ Hset pow)
      ∧ ∀ j : ℕ, 2 ≤ j → j < k1 → (j : F) ∈ Hset pow)
    ∧ (k1 + 1 ≤ k2 ∧ ((k2 : F) ∉ Hset pow)
      ∧ ((k2 : F) ∉ Set.image (fun x => (k1 : F) * x) (Hset pow))
      ∧ ∀ j : ℕ, k1 + 1 ≤ j → j < k2 →
          ((j : F) ∈ Hset pow ∨ (j : F) ∈ Set.image (fun x => (k1 : F) * x) (Hset pow)))
    ∧ Disjoint (Hset pow) (Set.image (fun x => (k1 : F) * x) (Hset pow))
    ∧ Disjoint (Hset pow) (Set.image (fun x => (k2 : F) * x) (Hset pow))
    ∧ Disjoint (Set.image (fun x => (k1 : F) * x) (Hset pow))
        (Set.image (fun x => (k2 : F) * x) (Hset pow)) := by
  simp only [get_k1_k2] at hrun
  cases hf1 : findK [] (omegaOf pow) (2 ^ pow) fuel 2 with
  | none => simp only [hf1] at hrun; exact absurd hrun (by simp)
  | some k1' =>
  simp only [hf1] at hrun
  cases hf2 : findK [k1'] (omegaOf pow) (2 ^ pow) fuel (k1' + 1) with
  | none => simp only [hf2] at hrun; exact absurd hrun (by simp)
  | some k2' =>
  simp only [hf2, Option.some.injEq, Prod.mk.injEq] at hrun
  obtain ⟨hk1eq, hk2eq⟩ := hrun
  rw [hk1eq] at hf1
  rw [hk1eq, hk2eq] at hf2
  obtain ⟨hk1ge, hk1not, hk1min⟩ := findK_spec [] (omegaOf pow) (2 ^ pow) fuel 2 k1 hf1
  obtain ⟨hk2ge, hk2not, hk2min⟩ :=
    findK_spec [k1] (omegaOf pow) (2 ^ pow) fuel (k1 + 1) k2 hf2
  have hk1r : k1 < bn254r := by omega
  have hds_pos : 0 < 2 ^ pow := Nat.pos_pow_of_pos pow (by norm_num)
  have he300 : (bn254r - 1) / 2 ^ pow < 2 ^ 300 :=
    lt_of_le_of_lt (Nat.div_le_self _ _) (by decide)
  have hwcast : ((omegaOf pow : ℕ) : F) = (2 : F) ^ ((bn254r - 1) / 2 ^ pow) := by
    have h := powMod_castF 2 ((bn254r - 1) / 2 ^ pow) he300
    rw [show omegaOf pow = powMod 2 ((bn254r - 1) / 2 ^ pow) bn254r from rfl]
    push_cast at h
    exact h
  have hdvd : 2 ^ pow ∣ bn254r - 1 :=
    dvd_trans (pow_dvd_pow 2 hpow28) (by decide)
  have hmul : (bn254r - 1) / 2 ^ pow * 2 ^ pow = bn254r - 1 := Nat.div_mul_cancel hdvd
  have hferm : (2 : F) ^ (bn254r - 1) = 1 := by
    have hcomp : powMod 2 (bn254r - 1) bn254r = 1 := by decide
    have hc := powMod_castF 2 (bn254r - 1) (by decide)
    rw [hcomp] at hc
    push_cast at hc
    exact hc.symm
  have hω1 : ((omegaOf pow : ℕ) : F) ^ (2 ^ pow) = 1 := by
    rw [hwcast, ← pow_mul, hmul, hferm]
  have hmem : ∀ y : F,
      (y ∈ Hset pow ↔ ∃ i < 2 ^ pow, y = ((omegaOf pow : ℕ) : F) ^ i) := by
    intro y
    constructor
    · rintro ⟨n, hn⟩
      have hn' : ((omegaOf pow : ℕ) : F) ^ n = y := hn
      obtain ⟨i, hi, hie⟩ := pow_mem_bounded _ _ hds_pos hω1 n
      exact ⟨i, hi, by rw [← hn', hie]⟩
    · rintro ⟨i, hi, hie⟩
      exact ⟨i, hie.symm⟩
  have hinc1 : ∀ m : ℕ, m < bn254r →
      (is_included m [] (omegaOf pow) (2 ^ pow) = true ↔ (m : F) ∈ Hset pow) := by
    intro m hm
    rw [is_included_iff m hm [] (by simp) (omegaOf pow) (2 ^ pow)]
    constructor
    · rintro ⟨i, hi, x, hx, he⟩
      have hx1 : x = 1 := by simpa using hx
      subst hx1
      refine (hmem _).mpr ⟨i, hi, ?_⟩
      rw [he]
      push_cast
      ring
    · intro hmemH
      obtain ⟨i, hi, hie⟩ := (hmem _).mp hmemH
      refine ⟨i, hi, 1, by simp, ?_⟩
      rw [hie]
      push_cast
      ring
  have hinc2 : ∀ m : ℕ, m < bn254r →
      (is_included m [k1] (omegaOf pow) (2 ^ pow) = true ↔
        ((m : F) ∈ Hset pow
          ∨ (m : F) ∈ Set.image (fun x => (k1 : F) * x) (Hset pow))) := by
    intro m hm
    rw [is_included_iff m hm [k1] (by intro x hx; simp at hx; omega) (omegaOf pow) (2 ^ pow)]
    constructor
    · rintro ⟨i, hi, x, hx, he⟩
      rcases List.mem_cons.mp hx with h1 | h1
      · subst h1
        left
        refine (hmem _).mpr ⟨i, hi, ?_⟩
        rw [he]
        push_cast
        ring
      · have hxk : x = k1 := by simpa using h1
        subst hxk
        right
        exact ⟨((omegaOf pow : ℕ) : F) ^ i, ⟨i, rfl⟩, he.symm⟩
    · rintro (hmH | hmK)
      · obtain ⟨i, hi, hie⟩ := (hmem _).mp hmH
        refine ⟨i, hi, 1, by simp, ?_⟩
        rw [hie]
        push_cast
        ring
      · obtain ⟨y, hyH, hy⟩ := hmK
        obtain ⟨n, hn⟩ := hyH
        have hn' : ((omegaOf pow : ℕ) : F) ^ n = y := hn
        have hy' : (k1 : F) * y = (m : F) := hy
        obtain ⟨i, hi, hie⟩ := pow_mem_bounded _ _ hds_pos hω1 n
        refine ⟨i, hi, k1, by simp, ?_⟩
        rw [← hy', ← hn', hie]
  have hk1notH : (k1 : F) ∉ Hset pow := by
    intro hmem'
    have hbad := (hinc1 k1 hk1r).mpr hmem'
    rw [hbad] at hk1not
    cases hk1not
  have hk2or : ¬((k2 : F) ∈ Hset pow
      ∨ (k2 : F) ∈ Set.image (fun x => (k1 : F) * x) (Hset pow)) := by
    intro hor
    have hbad := (hinc2 k2 hk2r).mpr hor
    rw [hbad] at hk2not
    cases hk2not
  have hk2notH : (k2 : F) ∉ Hset pow := fun h => hk2or (Or.inl h)
  have hk2notK1 : (k2 : F) ∉ Set.image (fun x => (k1 : F) * x) (Hset pow) :=
    fun h => hk2or (Or.inr h)
  have hdisj_gen : ∀ c : F, c ∉ Hset pow →
      Disjoint (Hset pow) (Set.image (fun x => c * x) (Hset pow)) := by
    intro c hc
    rw [Set.disjoint_left]
    rintro z ⟨i, hi⟩ ⟨y, ⟨j, hj⟩, hy⟩
    apply hc
    have hi' : ((omegaOf pow : ℕ) : F) ^ i = z := hi
    have hj' : ((omegaOf pow : ℕ) : F) ^ j = y := hj
    obtain ⟨m, hm⟩ := pow_shift _ _ hds_pos hω1 1 c i j (by
      rw [one_mul, hi', ← hy, ← hj'])
    exact ⟨m, show ((omegaOf pow : ℕ) : F) ^ m = c from by rw [hm, one_mul]⟩
  refine ⟨⟨hk1ge, hk1notH, ?_⟩,
         ⟨hk2ge, hk2notH, hk2notK1, ?_⟩,
         hdisj_gen _ hk1notH, hdisj_gen _ hk2notH, ?_⟩
  · intro j hj1 hj2
    exact (hinc1 j (by omega)).mp (hk1min j hj1 hj2)
  · intro j hj1 hj2
    exact (hinc2 j (by omega)).mp (hk2min j hj1 hj2)
  · rw [Set.disjoint_left]
    rintro z ⟨y1, ⟨i, hi⟩, hy1⟩ ⟨y2, ⟨j, hj⟩, hy2⟩
    apply hk2notK1
    have hi' : ((omegaOf pow : ℕ) : F) ^ i = y1 := hi
    have hj' : ((omegaOf pow : ℕ) : F) ^ j = y2 := hj
    have hy1' : (k1 : F) * y1 = z := hy1
    have hy2' : (k2 : F) * y2 = z := hy2
    obtain ⟨m, hm⟩ := pow_shift _ _ hds_pos hω1 (k1 : F) (k2 : F) i j (by
      rw [hi', hj', hy1', hy2'])
    exact ⟨((omegaOf pow : ℕ) : F) ^ m, ⟨m, rfl⟩, hm.symm⟩

/-- Claim C9 as stated is false on one point: it calls `⟨ω⟩` "the subgroup
of size `domain_size`".  At the concrete input `pow = 1` (so
`domain_size = 2`), `2` being a quadratic residue mod `r` makes
`ω = 2^((r−1)/2) mod r = 1`, so `⟨ω⟩ = {1}` has size `1 ≠ 2` — while the
search itself still runs and returns `(k1, k2) = (2, 3)`. -/
theorem claim_C9_size_counterexample :
    get_k1_k2 1 1 = some (2, 3)
    ∧ omegaOf 1 = 1
    ∧ (Hset 1).ncard = 1
    ∧ (Hset 1).ncard ≠ 2 ^ 1 := by
  have hω : omegaOf 1 = 1 := by decide
  have hH : Hset 1 = {1} := by
    rw [Hset, hω]
    ext y
    simp [eq_comm]
  refine ⟨by decide, hω, ?_, ?_⟩
  · rw [hH]
    exact Set.ncard_singleton 1
  · rw [hH, Set.ncard_singleton]
    decide

/-- Claim C9 (amended), witnessed at `pow = 1`, where the search returns
`k1 = 2`, `k2 = 3`. -/
theorem claim_C9_witness :
    (((2 : ℕ) : F) ∉ Hset 1)
    ∧ (((3 : ℕ) : F) ∉ Hset 1)
    ∧ Disjoint (Hset 1) (Set.image (fun x => ((2 : ℕ) : F) * x) (Hset 1)) := by
  have h := claim_C9_amended 1 1 2 3 (by decide) (by decide) (by decide) (by decide)
  exact ⟨h.1.2.1, h.2.1.2.1, h.2.2.1⟩

end SnarkRs
